import Mathlib

/-!
Verification of the ChebConv2 layer
(src/spektral/layers/convolutional/cheb_conv2.py).

Tensors are shallowly embedded as nested lists over a commutative ring:
a 3-D tensor of shape (batch, nodes, features) is a list of matrices,
a matrix is a list of rows.  The framework tensor primitives used by the
layer (KB.dot, ops.modal_dot, KB.bias_add, elementwise product with a
mask broadcast over the trailing feature dimension, elementwise
activation) are embedded as the corresponding list operations.

The weight reparameterization chebyshev_reparam_weights and the Laplacian
utilities normalized_laplacian / rescale_laplacian are repository code
that is not part of the given source fragment; the reparameterization is
kept as an abstract parameter of the forward pass (the layer only calls
it), and the Laplacian utilities are modelled from the spec where a claim
needs them.
-/

namespace ChebConv2

/-- A matrix: list of rows. -/
abbrev Mat (α : Type) := List (List α)

/-- A 3-D tensor of shape (batch, nodes, features): list of matrices. -/
abbrev Tensor3 (α : Type) := List (List (List α))

variable {α : Type}

/-- Dot product of two vectors (zipWith-truncating on ragged input). -/
def dotVec [Mul α] [Add α] [Zero α] (u v : List α) : α :=
  (List.zipWith (fun x y => x * y) u v).sum

/-- Number of columns of a list-matrix (length of its first row). -/
def colsLen (B : Mat α) : Nat := B.headI.length

/-- Column j of a list-matrix. -/
def col [Zero α] (B : Mat α) (j : Nat) : List α := B.map (fun r => r.getD j 0)

/-- Matrix product: entry (i, j) is row i of A dotted with column j of B. -/
def mmul [Mul α] [Add α] [Zero α] (A B : Mat α) : Mat α :=
  A.map (fun r => (List.range (colsLen B)).map (fun j => dotVec r (col B j)))

/-- KB.dot of a 3-D tensor with a 2-D weight matrix: matrix product applied
to every batch element. -/
def dot3 [Mul α] [Add α] [Zero α] (X : Tensor3 α) (W : Mat α) : Tensor3 α :=
  X.map (fun m => mmul m W)

/-- ops.modal_dot: batch-aware matrix product of two 3-D tensors. -/
def modal_dot [Mul α] [Add α] [Zero α] (A X : Tensor3 α) : Tensor3 α :=
  List.zipWith mmul A X

/-- Elementwise sum of two 3-D tensors. -/
def add3 [Add α] (X Y : Tensor3 α) : Tensor3 α :=
  List.zipWith (List.zipWith (List.zipWith (fun x y => x + y))) X Y

/-- Elementwise difference of two 3-D tensors. -/
def sub3 [Sub α] (X Y : Tensor3 α) : Tensor3 α :=
  List.zipWith (List.zipWith (List.zipWith (fun x y => x - y))) X Y

/-- Scalar multiple of a 3-D tensor. -/
def smul3 [Mul α] (c : α) (X : Tensor3 α) : Tensor3 α :=
  X.map (List.map (List.map (fun x => c * x)))

/-- KB.bias_add: add a bias vector along the trailing feature dimension. -/
def biasAdd [Add α] (X : Tensor3 α) (b : List α) : Tensor3 α :=
  X.map (List.map (fun r => List.zipWith (fun x y => x + y) r b))

/-- output *= m, where the (batch, nodes) mask m is broadcast over the
trailing feature dimension. -/
def maskMul [Mul α] (X : Tensor3 α) (m : Mat α) : Tensor3 α :=
  List.zipWith (fun mat mrow =>
    List.zipWith (fun row s => row.map (fun x => s * x)) mat mrow) X m

/-- Elementwise application of a function (the activation) to a 3-D tensor. -/
def map3 (f : α → α) (X : Tensor3 α) : Tensor3 α :=
  X.map (List.map (List.map f))

/-- One iteration of the loop for k in range(2, K): the state is
(output, T_0, T_1); compute T_2 = 2 (a T_1) - T_0, accumulate its
contribution, and roll T_0, T_1 = T_1, T_2. -/
def chebStep [CommRing α] (K : Nat) (kernel : Tensor3 α)
    (reparam : Nat → Tensor3 α → Nat → Mat α) (a : Tensor3 α)
    (s : Tensor3 α × Tensor3 α × Tensor3 α) (k : Nat) :
    Tensor3 α × Tensor3 α × Tensor3 α :=
  let T_2 := sub3 (smul3 2 (modal_dot a s.2.2)) s.2.1
  (add3 s.1 (dot3 T_2 (reparam K kernel k)), s.2.2, T_2)

/-- The accumulation part of ChebConv2.call (lines 101-112 of the source):
T_0 = x with its reparam(K, kernel, 0) contribution; if K > 1 also
T_1 = a x with its contribution; then the loop for k in range(2, K).
(When K <= 1 the Python loop body never runs, so the loop sits inside the
K > 1 branch without changing the meaning.) -/
def chebAccum [CommRing α] (K : Nat) (kernel : Tensor3 α)
    (reparam : Nat → Tensor3 α → Nat → Mat α) (x a : Tensor3 α) : Tensor3 α :=
  let T_0 := x
  let output := dot3 T_0 (reparam K kernel 0)
  if 1 < K then
    let T_1 := modal_dot a x
    let output := add3 output (dot3 T_1 (reparam K kernel 1))
    ((List.range' 2 (K - 2)).foldl (chebStep K kernel reparam a)
      (output, T_0, T_1)).1
  else
    output

/-- Bias step of call: output = KB.bias_add(output, bias) when use_bias. -/
def biasStage [Add α] (use_bias : Bool) (b : List α) (o : Tensor3 α) : Tensor3 α :=
  if use_bias then biasAdd o b else o

/-- Mask step of call: output *= mask[0] when a mask is provided. -/
def maskStage [Mul α] (mask : Option (List (Mat α))) (o : Tensor3 α) : Tensor3 α :=
  match mask with
  | some ms => maskMul o ms.headI
  | none => o

/-- ChebConv2.call: Chebyshev accumulation, then bias, then mask, then the
elementwise activation. -/
def call [CommRing α] (K : Nat) (kernel : Tensor3 α) (use_bias : Bool)
    (bias : List α) (activation : α → α)
    (reparam : Nat → Tensor3 α → Nat → Mat α)
    (x a : Tensor3 α) (mask : Option (List (Mat α))) : Tensor3 α :=
  map3 activation (maskStage mask (biasStage use_bias bias
    (chebAccum K kernel reparam x a)))

/-- The Chebyshev term sequence of the spec: T_0 = x, T_1 = a x,
T_k = 2 (a T_{k-1}) - T_{k-2}. -/
def chebT [CommRing α] (a x : Tensor3 α) : Nat → Tensor3 α
  | 0 => x
  | 1 => modal_dot a x
  | (k + 2) => sub3 (smul3 2 (modal_dot a (chebT a x (k + 1)))) (chebT a x k)

/-- The spec-side value of the accumulation: the sum over k = 0 .. K-1 of
T_k reparam(K, kernel, k), written as a left fold starting from the k = 0
term. -/
def chebSpecSum [CommRing α] (K : Nat) (kernel : Tensor3 α)
    (reparam : Nat → Tensor3 α → Nat → Mat α) (x a : Tensor3 α) : Tensor3 α :=
  (List.range' 1 (K - 1)).foldl
    (fun acc k => add3 acc (dot3 (chebT a x k) (reparam K kernel k)))
    (dot3 (chebT a x 0) (reparam K kernel 0))

/-- The loop of chebAccum, started in the state
(acc, T_{j}, T_{j+1}) at order j+2, computes the fold of the spec-side
per-order contributions and ends with the last two Chebyshev terms. -/
theorem chebFold_eq [CommRing α] (K : Nat) (kernel : Tensor3 α)
    (reparam : Nat → Tensor3 α → Nat → Mat α) (x a : Tensor3 α) :
    ∀ (len j : Nat) (acc : Tensor3 α),
      (List.range' (j + 2) len).foldl (chebStep K kernel reparam a)
          (acc, chebT a x j, chebT a x (j + 1))
        = ((List.range' (j + 2) len).foldl
            (fun o k => add3 o (dot3 (chebT a x k) (reparam K kernel k))) acc,
           chebT a x (j + len), chebT a x (j + len + 1)) := by
  intro len
  induction len with
  | zero => intro j acc; simp
  | succ n ih =>
    intro j acc
    have hrange : List.range' (j + 2) (n + 1)
        = (j + 2) :: List.range' (j + 3) n := rfl
    rw [hrange]
    simp only [List.foldl_cons]
    have hstep : chebStep K kernel reparam a (acc, chebT a x j, chebT a x (j + 1)) (j + 2)
        = (add3 acc (dot3 (chebT a x (j + 2)) (reparam K kernel (j + 2))),
           chebT a x (j + 1), chebT a x (j + 2)) := rfl
    rw [hstep]
    have harith : j + 3 = (j + 1) + 2 := by omega
    rw [harith, ih (j + 1)]
    have h1 : j + 1 + n = j + (n + 1) := by omega
    rw [h1]

/-- The accumulated output of call equals the spec-side Chebyshev sum, for
every K. -/
theorem chebAccum_eq_spec [CommRing α] (K : Nat) (kernel : Tensor3 α)
    (reparam : Nat → Tensor3 α → Nat → Mat α) (x a : Tensor3 α) :
    chebAccum K kernel reparam x a = chebSpecSum K kernel reparam x a := by
  unfold chebAccum chebSpecSum
  by_cases h : 1 < K
  · rw [if_pos h]
    have h0x : chebT a x 0 = x := rfl
    have h1x : chebT a x 1 = modal_dot a x := rfl
    have hfold := chebFold_eq K kernel reparam x a (K - 2) 0
      (add3 (dot3 x (reparam K kernel 0)) (dot3 (modal_dot a x) (reparam K kernel 1)))
    simp only [Nat.zero_add, h0x, h1x] at hfold
    have hK1 : K - 1 = (K - 2) + 1 := by omega
    have hrange : List.range' 1 ((K - 2) + 1) = 1 :: List.range' 2 (K - 2) := rfl
    rw [hK1, hrange]
    simp only [List.foldl_cons, h0x, h1x]
    rw [hfold]
  · rw [if_neg h]
    have hK1 : K - 1 = 0 := by omega
    rw [hK1]
    rfl

/-- C1: for every K >= 1, weight tensor, input x and operator a, the
pre-bias, pre-mask, pre-activation output of call equals the sum over
k = 0 .. K-1 of T_k reparam(K, W, k), where the terms follow the Chebyshev
recurrence T_0 = x, T_1 = a x (included only when K > 1) and
T_k = 2 (a T_{k-1}) - T_{k-2}, the loop rolling T_0 := T_1, T_1 := T_2
after each iteration. -/
theorem C1_call_is_chebyshev_sum [CommRing α] (K : Nat) (kernel : Tensor3 α)
    (use_bias : Bool) (bias : List α) (activation : α → α)
    (reparam : Nat → Tensor3 α → Nat → Mat α) (x a : Tensor3 α)
    (mask : Option (List (Mat α))) (hK : 1 ≤ K) :
    chebAccum K kernel reparam x a = chebSpecSum K kernel reparam x a
    ∧ call K kernel use_bias bias activation reparam x a mask
      = map3 activation (maskStage mask (biasStage use_bias bias
          (chebSpecSum K kernel reparam x a))) := by
  refine ⟨chebAccum_eq_spec K kernel reparam x a, ?_⟩
  unfold call
  rw [chebAccum_eq_spec]

/-- Witness for C1 at K = 3 with concrete integer tensors. -/
theorem C1_call_is_chebyshev_sum_witness :
    1 ≤ 3 ∧
      (chebAccum 3 ([[[1], [0]], [[0], [1]], [[1], [1]]] : Tensor3 ℤ)
          (fun n W k => W.getD k []) [[[1, 2], [3, 4]]] [[[0, 1], [1, 0]]]
        = chebSpecSum 3 ([[[1], [0]], [[0], [1]], [[1], [1]]] : Tensor3 ℤ)
            (fun n W k => W.getD k []) [[[1, 2], [3, 4]]] [[[0, 1], [1, 0]]]
       ∧ call 3 ([[[1], [0]], [[0], [1]], [[1], [1]]] : Tensor3 ℤ) true [5]
            (fun v => v + 1)
            (fun n W k => W.getD k []) [[[1, 2], [3, 4]]] [[[0, 1], [1, 0]]]
            (some [[[1, 0]]])
          = map3 (fun v => v + 1) (maskStage (some [[[1, 0]]])
              (biasStage true [5]
                (chebSpecSum 3 ([[[1], [0]], [[0], [1]], [[1], [1]]] : Tensor3 ℤ)
                  (fun n W k => W.getD k []) [[[1, 2], [3, 4]]] [[[0, 1], [1, 0]]])))) :=
  ⟨by decide,
   C1_call_is_chebyshev_sum 3 ([[[1], [0]], [[0], [1]], [[1], [1]]] : Tensor3 ℤ)
     true [5] (fun v => v + 1) (fun n W k => W.getD k []) [[[1, 2], [3, 4]]]
     [[[0, 1], [1, 0]]] (some [[[1, 0]]]) (by decide)⟩

/-- C2: with K = 1 the output of call is the pure per-node linear transform
x reparam(1, W, 0) followed by bias, mask and activation, and the graph
operator has no influence: call agrees on any two operators. -/
theorem C2_K1_operator_has_no_influence [CommRing α] (kernel : Tensor3 α)
    (use_bias : Bool) (bias : List α) (activation : α → α)
    (reparam : Nat → Tensor3 α → Nat → Mat α) (x a₁ a₂ : Tensor3 α)
    (mask : Option (List (Mat α))) :
    call 1 kernel use_bias bias activation reparam x a₁ mask
      = map3 activation (maskStage mask (biasStage use_bias bias
          (dot3 x (reparam 1 kernel 0))))
    ∧ call 1 kernel use_bias bias activation reparam x a₁ mask
      = call 1 kernel use_bias bias activation reparam x a₂ mask :=
  ⟨rfl, rfl⟩

/-- Shape predicate for matrices: r rows, each of length c. -/
def isShape2 (m : Mat α) (r c : Nat) : Prop :=
  m.length = r ∧ ∀ row ∈ m, row.length = c

instance (m : Mat α) (r c : Nat) : Decidable (isShape2 m r c) :=
  inferInstanceAs (Decidable (_ ∧ _))

/-- Shape predicate for 3-D tensors: b matrices of shape (r, c). -/
def isShape3 (t : Tensor3 α) (b r c : Nat) : Prop :=
  t.length = b ∧ ∀ m ∈ t, isShape2 m r c

instance (t : Tensor3 α) (b r c : Nat) : Decidable (isShape3 t b r c) :=
  inferInstanceAs (Decidable (_ ∧ _))

theorem exists_of_mem_zipWith {β γ δ : Type} {f : β → γ → δ} :
    ∀ {l₁ : List β} {l₂ : List γ} {z : δ}, z ∈ List.zipWith f l₁ l₂ →
      ∃ u v, u ∈ l₁ ∧ v ∈ l₂ ∧ z = f u v := by
  intro l₁
  induction l₁ with
  | nil => intro l₂ z h; simp at h
  | cons p ps ih =>
    intro l₂ z h
    cases l₂ with
    | nil => simp at h
    | cons q qs =>
      rw [List.zipWith_cons_cons, List.mem_cons] at h
      rcases h with h | h
      · exact ⟨p, q, List.mem_cons_self p ps, List.mem_cons_self q qs, h⟩
      · obtain ⟨u, v, hu, hv, hz⟩ := ih h
        exact ⟨u, v, List.mem_cons_of_mem p hu, List.mem_cons_of_mem q hv, hz⟩

theorem colsLen_eq {B : Mat α} {f c : Nat} (hB : isShape2 B f c) (hf : 0 < f) :
    colsLen B = c := by
  obtain ⟨hlen, hrows⟩ := hB
  cases B with
  | nil => simp at hlen; omega
  | cons r rs => simpa [colsLen] using hrows r (List.mem_cons_self r rs)

theorem mmul_shape [Mul α] [Add α] [Zero α] {A B : Mat α} {n f c : Nat}
    (hA : isShape2 A n f) (hB : isShape2 B f c) (hf : 0 < f) :
    isShape2 (mmul A B) n c := by
  constructor
  · simpa [mmul] using hA.1
  · intro row hrow
    simp only [mmul, List.mem_map] at hrow
    obtain ⟨r, _, rfl⟩ := hrow
    simp [colsLen_eq hB hf]

theorem dot3_shape [Mul α] [Add α] [Zero α] {X : Tensor3 α} {W : Mat α}
    {b n f c : Nat} (hX : isShape3 X b n f) (hW : isShape2 W f c) (hf : 0 < f) :
    isShape3 (dot3 X W) b n c := by
  constructor
  · simpa [dot3] using hX.1
  · intro m hm
    simp only [dot3, List.mem_map] at hm
    obtain ⟨m0, hm0, rfl⟩ := hm
    exact mmul_shape (hX.2 m0 hm0) hW hf

theorem modal_dot_shape [Mul α] [Add α] [Zero α] {A X : Tensor3 α} {b n f : Nat}
    (hA : isShape3 A b n n) (hX : isShape3 X b n f) :
    isShape3 (modal_dot A X) b n f := by
  constructor
  · simp [modal_dot, List.length_zipWith, hA.1, hX.1]
  · intro m hm
    obtain ⟨aM, xM, haM, hxM, rfl⟩ := exists_of_mem_zipWith hm
    by_cases hn : 0 < n
    · exact mmul_shape (hA.2 aM haM) (hX.2 xM hxM) hn
    · have haM0 : aM = [] := by
        have := (hA.2 aM haM).1
        exact List.length_eq_zero.mp (by omega)
      subst haM0
      exact ⟨by simp [mmul]; omega, by simp [mmul]⟩

theorem zipWithMat_shape (op : α → α → α) {X Y : Mat α} {n c : Nat}
    (hX : isShape2 X n c) (hY : isShape2 Y n c) :
    isShape2 (List.zipWith (List.zipWith op) X Y) n c := by
  constructor
  · simp [List.length_zipWith, hX.1, hY.1]
  · intro row hrow
    obtain ⟨r1, r2, h1, h2, rfl⟩ := exists_of_mem_zipWith hrow
    simp [List.length_zipWith, hX.2 r1 h1, hY.2 r2 h2]

theorem zipWith3_shape (op : α → α → α) {X Y : Tensor3 α} {b n c : Nat}
    (hX : isShape3 X b n c) (hY : isShape3 Y b n c) :
    isShape3 (List.zipWith (List.zipWith (List.zipWith op)) X Y) b n c := by
  constructor
  · simp [List.length_zipWith, hX.1, hY.1]
  · intro m hm
    obtain ⟨m1, m2, h1, h2, rfl⟩ := exists_of_mem_zipWith hm
    exact zipWithMat_shape op (hX.2 m1 h1) (hY.2 m2 h2)

theorem add3_shape [Add α] {X Y : Tensor3 α} {b n c : Nat}
    (hX : isShape3 X b n c) (hY : isShape3 Y b n c) :
    isShape3 (add3 X Y) b n c :=
  zipWith3_shape _ hX hY

theorem sub3_shape [Sub α] {X Y : Tensor3 α} {b n c : Nat}
    (hX : isShape3 X b n c) (hY : isShape3 Y b n c) :
    isShape3 (sub3 X Y) b n c :=
  zipWith3_shape _ hX hY

theorem map3_shape (g : α → α) {X : Tensor3 α} {b n c : Nat}
    (hX : isShape3 X b n c) : isShape3 (map3 g X) b n c := by
  constructor
  · simpa [map3] using hX.1
  · intro m hm
    simp only [map3, List.mem_map] at hm
    obtain ⟨m0, hm0, rfl⟩ := hm
    refine ⟨by simpa using (hX.2 m0 hm0).1, ?_⟩
    intro row hrow
    simp only [List.mem_map] at hrow
    obtain ⟨r0, hr0, rfl⟩ := hrow
    simpa using (hX.2 m0 hm0).2 r0 hr0

theorem smul3_shape [Mul α] (s : α) {X : Tensor3 α} {b n c : Nat}
    (hX : isShape3 X b n c) : isShape3 (smul3 s X) b n c :=
  map3_shape _ hX

theorem biasAdd_shape [Add α] {X : Tensor3 α} {bvec : List α} {b n c : Nat}
    (hX : isShape3 X b n c) (hb : bvec.length = c) :
    isShape3 (biasAdd X bvec) b n c := by
  constructor
  · simpa [biasAdd] using hX.1
  · intro m hm
    simp only [biasAdd, List.mem_map] at hm
    obtain ⟨m0, hm0, rfl⟩ := hm
    refine ⟨by simpa using (hX.2 m0 hm0).1, ?_⟩
    intro row hrow
    simp only [List.mem_map] at hrow
    obtain ⟨r0, hr0, rfl⟩ := hrow
    simp [List.length_zipWith, (hX.2 m0 hm0).2 r0 hr0, hb]

theorem maskMul_shape [Mul α] {X : Tensor3 α} {m : Mat α} {b n c : Nat}
    (hX : isShape3 X b n c) (hm : isShape2 m b n) :
    isShape3 (maskMul X m) b n c := by
  constructor
  · simp [maskMul, List.length_zipWith, hX.1, hm.1]
  · intro mat hmat
    obtain ⟨m0, mr, hm0, hmr, rfl⟩ := exists_of_mem_zipWith hmat
    constructor
    · simp [List.length_zipWith, (hX.2 m0 hm0).1, hm.2 mr hmr]
    · intro row hrow
      obtain ⟨r0, s, hr0, _, rfl⟩ := exists_of_mem_zipWith hrow
      simpa using (hX.2 m0 hm0).2 r0 hr0

theorem chebT_shape [CommRing α] {a x : Tensor3 α} {b n f : Nat}
    (ha : isShape3 a b n n) (hx : isShape3 x b n f) :
    ∀ k, isShape3 (chebT a x k) b n f := by
  have key : ∀ k, isShape3 (chebT a x k) b n f
      ∧ isShape3 (chebT a x (k + 1)) b n f := by
    intro k
    induction k with
    | zero => exact ⟨hx, modal_dot_shape ha hx⟩
    | succ j ih =>
      refine ⟨ih.2, ?_⟩
      show isShape3 (chebT a x (j + 2)) b n f
      rw [chebT]
      exact sub3_shape (smul3_shape _ (modal_dot_shape ha ih.2)) ih.1
  exact fun k => (key k).1

theorem foldl_add3_dot3_shape [CommRing α] {K : Nat} {kernel : Tensor3 α}
    {reparam : Nat → Tensor3 α → Nat → Mat α} {x a : Tensor3 α} {b n f c : Nat}
    (ha : isShape3 a b n n) (hx : isShape3 x b n f) (hf : 0 < f) :
    ∀ (l : List Nat) (acc : Tensor3 α),
      (∀ k ∈ l, isShape2 (reparam K kernel k) f c) → isShape3 acc b n c →
      isShape3 (l.foldl
        (fun o k => add3 o (dot3 (chebT a x k) (reparam K kernel k))) acc) b n c := by
  intro l
  induction l with
  | nil => intro acc _ hacc; simpa using hacc
  | cons k ks ih =>
    intro acc hrep hacc
    simp only [List.foldl_cons]
    refine ih _ (fun j hj => hrep j (List.mem_cons_of_mem k hj)) ?_
    exact add3_shape hacc
      (dot3_shape (chebT_shape ha hx k) (hrep k (List.mem_cons_self k ks)) hf)

theorem chebSpecSum_shape [CommRing α] {K : Nat} {kernel : Tensor3 α}
    {reparam : Nat → Tensor3 α → Nat → Mat α} {x a : Tensor3 α} {b n f c : Nat}
    (ha : isShape3 a b n n) (hx : isShape3 x b n f)
    (hrep : ∀ k, k < K → isShape2 (reparam K kernel k) f c)
    (hK : 1 ≤ K) (hf : 0 < f) :
    isShape3 (chebSpecSum K kernel reparam x a) b n c := by
  unfold chebSpecSum
  refine foldl_add3_dot3_shape ha hx hf _ _ ?_ ?_
  · intro k hk
    rw [List.mem_range'_1] at hk
    exact hrep k (by omega)
  · exact dot3_shape (chebT_shape ha hx 0) (hrep 0 (by omega)) hf

/-- C4: for every valid input x of shape (B, N, F) with F > 0, operator of
shape (B, N, N), per-order weight matrices of shape (F, C), bias of length
C and well-shaped mask, the output of call has shape (B, N, C): the leading
dimensions of x with the last dimension replaced by channels. -/
theorem C4_output_shape [CommRing α] (K : Nat) (kernel : Tensor3 α)
    (use_bias : Bool) (bias : List α) (activation : α → α)
    (reparam : Nat → Tensor3 α → Nat → Mat α) (x a : Tensor3 α)
    (mask : Option (List (Mat α))) (B N F C : Nat)
    (hx : isShape3 x B N F) (ha : isShape3 a B N N)
    (hrep : ∀ k, k < K → isShape2 (reparam K kernel k) F C)
    (hbias : bias.length = C)
    (hmask : ∀ ms ∈ mask, isShape2 ms.headI B N)
    (hK : 1 ≤ K) (hF : 0 < F) :
    isShape3 (call K kernel use_bias bias activation reparam x a mask) B N C := by
  unfold call
  apply map3_shape
  have hsum : isShape3 (chebAccum K kernel reparam x a) B N C := by
    rw [chebAccum_eq_spec]
    exact chebSpecSum_shape ha hx hrep hK hF
  have hbs : isShape3 (biasStage use_bias bias (chebAccum K kernel reparam x a))
      B N C := by
    unfold biasStage
    cases use_bias with
    | false => exact hsum
    | true => exact biasAdd_shape hsum hbias
  unfold maskStage
  cases mask with
  | none => exact hbs
  | some ms => exact maskMul_shape hbs (hmask ms rfl)

/-- Witness for C4 at K = 2 with concrete integer tensors of shapes
B = 1, N = 2, F = 2, C = 1. -/
theorem C4_output_shape_witness :
    isShape3 (call 2 ([[[1], [2]], [[3], [4]]] : Tensor3 ℤ) true [7]
      (fun v => v) (fun _ W k => W.getD k []) [[[1, 2], [3, 4]]]
      [[[0, 1], [1, 0]]] (some [[[1, 1]]])) 1 2 1 :=
  C4_output_shape 2 ([[[1], [2]], [[3], [4]]] : Tensor3 ℤ) true [7]
    (fun v => v) (fun _ W k => W.getD k []) [[[1, 2], [3, 4]]]
    [[[0, 1], [1, 0]]] (some [[[1, 1]]]) 1 2 2 1
    (by decide) (by decide)
    (by intro k hk; interval_cases k <;> decide)
    (by decide)
    (by intro ms h; rw [Option.mem_def] at h; injection h with h2; subst h2; decide)
    (by decide) (by decide)

/-- The bias vector broadcast over the leading (batch, nodes) dimensions. -/
def biasBroadcast (b n : Nat) (bv : List α) : Tensor3 α :=
  List.replicate b (List.replicate n bv)

/-- C5 counterexample: with the squaring activation (applied by call after
the bias), the difference between the biased and unbiased outputs of call
is not the broadcast bias vector. -/
theorem C5_counterexample :
    ¬ (sub3 (call 1 ([[[1]]] : Tensor3 ℤ) true [1] (fun v => v * v)
          (fun _ W _ => W.headI) [[[1]]] [[[0]]] none)
        (call 1 ([[[1]]] : Tensor3 ℤ) false [1] (fun v => v * v)
          (fun _ W _ => W.headI) [[[1]]] [[[0]]] none)
      = biasBroadcast 1 1 [1]) := by decide

theorem vec_sub_add [CommRing α] :
    ∀ (r bv : List α), r.length = bv.length →
      List.zipWith (fun x y => x - y)
        (List.zipWith (fun x y => x + y) r bv) r = bv := by
  intro r
  induction r with
  | nil =>
    intro bv h
    cases bv with
    | nil => rfl
    | cons w ws => simp at h
  | cons z zs ih =>
    intro bv h
    cases bv with
    | nil => simp at h
    | cons w ws =>
      rw [List.zipWith_cons_cons, List.zipWith_cons_cons]
      have hz : z + w - z = w := by ring
      rw [hz, ih ws (by simpa using h)]

theorem mat_sub_biasAdd [CommRing α] :
    ∀ (m : Mat α) (bv : List α) (N c : Nat), isShape2 m N c → bv.length = c →
      List.zipWith (List.zipWith (fun x y => x - y))
          (m.map (fun r => List.zipWith (fun x y => x + y) r bv)) m
        = List.replicate N bv := by
  intro m
  induction m with
  | nil =>
    intro bv N c h _
    have hN : N = 0 := by simpa using h.1.symm
    subst hN
    rfl
  | cons r rs ih =>
    intro bv N c h hb
    have hN : N = rs.length + 1 := by simpa using h.1.symm
    subst hN
    rw [List.map_cons, List.zipWith_cons_cons, List.replicate_succ]
    congr 1
    · exact vec_sub_add r bv
        (by rw [hb, h.2 r (List.mem_cons_self r rs)])
    · exact ih bv rs.length c
        ⟨rfl, fun row hrow => h.2 row (List.mem_cons_of_mem r hrow)⟩ hb

theorem sub3_biasAdd [CommRing α] :
    ∀ (t : Tensor3 α) (bv : List α) (B N c : Nat), isShape3 t B N c →
      bv.length = c → sub3 (biasAdd t bv) t = biasBroadcast B N bv := by
  intro t
  induction t with
  | nil =>
    intro bv B N c ht _
    have hB : B = 0 := by simpa using ht.1.symm
    subst hB
    rfl
  | cons m ms ih =>
    intro bv B N c ht hb
    have hB : B = ms.length + 1 := by simpa using ht.1.symm
    subst hB
    show List.zipWith (List.zipWith (List.zipWith (fun x y => x - y)))
        ((m :: ms).map (List.map (fun r => List.zipWith (fun x y => x + y) r bv)))
        (m :: ms) = _
    rw [List.map_cons, List.zipWith_cons_cons]
    unfold biasBroadcast
    rw [List.replicate_succ]
    congr 1
    · exact mat_sub_biasAdd m bv N c (ht.2 m (List.mem_cons_self m ms)) hb
    · exact ih bv ms.length N c
        ⟨rfl, fun mat hmat => ht.2 mat (List.mem_cons_of_mem m hmat)⟩ hb

/-- map3 with the identity activation is the identity. -/
theorem map3_id (X : Tensor3 α) : map3 (fun v => v) X = X := by
  simp [map3]

/-- C5 (amended): with the identity (default) activation and no mask, the
output of call with use_bias enabled minus the output with use_bias
disabled equals exactly the bias vector broadcast over (B, N, .),
independently of x and the operator. -/
theorem C5_amended_bias_difference [CommRing α] (K : Nat) (kernel : Tensor3 α)
    (bias : List α) (reparam : Nat → Tensor3 α → Nat → Mat α)
    (x a : Tensor3 α) (B N F C : Nat)
    (hx : isShape3 x B N F) (ha : isShape3 a B N N)
    (hrep : ∀ k, k < K → isShape2 (reparam K kernel k) F C)
    (hbias : bias.length = C) (hK : 1 ≤ K) (hF : 0 < F) :
    sub3 (call K kernel true bias (fun v => v) reparam x a none)
        (call K kernel false bias (fun v => v) reparam x a none)
      = biasBroadcast B N bias := by
  have hsum : isShape3 (chebAccum K kernel reparam x a) B N C := by
    rw [chebAccum_eq_spec]
    exact chebSpecSum_shape ha hx hrep hK hF
  have ht : call K kernel true bias (fun v => v) reparam x a none
      = biasAdd (chebAccum K kernel reparam x a) bias := by
    unfold call maskStage biasStage
    rw [if_pos rfl, map3_id]
  have hf : call K kernel false bias (fun v => v) reparam x a none
      = chebAccum K kernel reparam x a := by
    unfold call maskStage biasStage
    rw [map3_id]
    rfl
  rw [ht, hf]
  exact sub3_biasAdd _ bias B N C hsum hbias

/-- Witness for the amended C5 at K = 2 with concrete integer tensors. -/
theorem C5_amended_bias_difference_witness :
    sub3 (call 2 ([[[1], [2]], [[3], [4]]] : Tensor3 ℤ) true [7]
        (fun v => v) (fun _ W k => W.getD k []) [[[1, 2], [3, 4]]]
        [[[0, 1], [1, 0]]] none)
      (call 2 ([[[1], [2]], [[3], [4]]] : Tensor3 ℤ) false [7]
        (fun v => v) (fun _ W k => W.getD k []) [[[1, 2], [3, 4]]]
        [[[0, 1], [1, 0]]] none)
    = biasBroadcast 1 2 [7] :=
  C5_amended_bias_difference 2 ([[[1], [2]], [[3], [4]]] : Tensor3 ℤ) [7]
    (fun _ W k => W.getD k []) [[[1, 2], [3, 4]]] [[[0, 1], [1, 0]]] 1 2 2 1
    (by decide) (by decide)
    (by intro k hk; interval_cases k <;> decide)
    (by decide) (by decide) (by decide)

/-- The row of a 3-D tensor at batch index bi, node index ni. -/
def entryRow (t : Tensor3 α) (bi ni : Nat) : List α :=
  (t.getD bi []).getD ni []

theorem entryRow_length {X : Tensor3 α} {B N c bi ni : Nat}
    (hX : isShape3 X B N c) (hb : bi < B) (hn : ni < N) :
    (entryRow X bi ni).length = c := by
  have h1 : bi < X.length := by rw [hX.1]; exact hb
  have hmem : X.getD bi [] ∈ X := by
    rw [List.getD_eq_getElem X [] h1]
    exact List.getElem_mem h1
  have hsh := hX.2 _ hmem
  have h2 : ni < (X.getD bi []).length := by rw [hsh.1]; exact hn
  have hmem2 : (X.getD bi []).getD ni [] ∈ X.getD bi [] := by
    rw [List.getD_eq_getElem _ [] h2]
    exact List.getElem_mem h2
  exact hsh.2 _ hmem2

theorem maskMul_entryRow [Mul α] [Zero α] {X : Tensor3 α} {m : Mat α} {B N c bi ni : Nat}
    (hX : isShape3 X B N c) (hm : isShape2 m B N) (hb : bi < B) (hn : ni < N) :
    entryRow (maskMul X m) bi ni
      = (entryRow X bi ni).map (fun v => ((m.getD bi []).getD ni 0) * v) := by
  have hXb : bi < X.length := by rw [hX.1]; exact hb
  have hmb : bi < m.length := by rw [hm.1]; exact hb
  have hzb : bi < (maskMul X m).length := by
    rw [(maskMul_shape hX hm).1]
    exact hb
  unfold maskMul at hzb ⊢
  unfold entryRow
  rw [List.getD_eq_getElem _ [] hzb, List.getElem_zipWith]
  have hXrow : (X[bi]).length = N := (hX.2 _ (List.getElem_mem hXb)).1
  have hmrow : (m[bi]).length = N := hm.2 _ (List.getElem_mem hmb)
  have hinner : ni < (List.zipWith
      (fun row s => row.map (fun v => s * v)) (X[bi]) (m[bi])).length := by
    rw [List.length_zipWith, hXrow, hmrow]
    simpa using hn
  rw [List.getD_eq_getElem _ [] hinner, List.getElem_zipWith]
  rw [List.getD_eq_getElem X [] hXb, List.getD_eq_getElem m [] hmb]
  have hXn : ni < (X[bi]).length := by rw [hXrow]; exact hn
  have hmn : ni < (m[bi]).length := by rw [hmrow]; exact hn
  rw [List.getD_eq_getElem _ [] hXn, List.getD_eq_getElem _ 0 hmn]

theorem map3_entryRow (g : α → α) {X : Tensor3 α} {B N c bi ni : Nat}
    (hX : isShape3 X B N c) (hb : bi < B) (hn : ni < N) :
    entryRow (map3 g X) bi ni = (entryRow X bi ni).map g := by
  have hXb : bi < X.length := by rw [hX.1]; exact hb
  have hmapb : bi < (X.map (List.map (List.map g))).length := by simpa using hXb
  unfold map3 entryRow
  rw [List.getD_eq_getElem _ [] hmapb, List.getElem_map]
  have hlen : ni < (X[bi]).length := by
    rw [(hX.2 _ (List.getElem_mem hXb)).1]
    exact hn
  have hmaplen : ni < ((X[bi]).map (List.map g)).length := by simpa using hlen
  rw [List.getD_eq_getElem _ [] hmaplen, List.getElem_map]
  rw [List.getD_eq_getElem X [] hXb, List.getD_eq_getElem _ [] hlen]

theorem map_zero_mul [MulZeroClass α] (r : List α) :
    r.map (fun v => (0 : α) * v) = List.replicate r.length 0 := by
  induction r with
  | nil => rfl
  | cons z zs ih =>
    rw [List.map_cons, zero_mul, ih, List.length_cons, List.replicate_succ]

/-- C6: when a mask is provided, call multiplies the accumulated output by
mask[0] after the bias is added and before the activation: at a node whose
mask entry is zero, the post-mask pre-activation row is exactly zero, and
the row returned by call is activation(0) at every channel. -/
theorem C6_mask_zeroes_row [CommRing α] (K : Nat) (kernel : Tensor3 α)
    (use_bias : Bool) (bias : List α) (activation : α → α)
    (reparam : Nat → Tensor3 α → Nat → Mat α) (x a : Tensor3 α)
    (ms : List (Mat α)) (B N F C bi ni : Nat)
    (hx : isShape3 x B N F) (ha : isShape3 a B N N)
    (hrep : ∀ k, k < K → isShape2 (reparam K kernel k) F C)
    (hbias : bias.length = C) (hK : 1 ≤ K) (hF : 0 < F)
    (hms : isShape2 ms.headI B N) (hb : bi < B) (hn : ni < N)
    (hzero : (ms.headI.getD bi []).getD ni 0 = 0) :
    entryRow (maskStage (some ms) (biasStage use_bias bias
        (chebAccum K kernel reparam x a))) bi ni = List.replicate C 0
    ∧ entryRow (call K kernel use_bias bias activation reparam x a (some ms))
        bi ni = List.replicate C (activation 0) := by
  have hsum : isShape3 (chebAccum K kernel reparam x a) B N C := by
    rw [chebAccum_eq_spec]
    exact chebSpecSum_shape ha hx hrep hK hF
  have ho : isShape3 (biasStage use_bias bias (chebAccum K kernel reparam x a))
      B N C := by
    unfold biasStage
    cases use_bias with
    | false => exact hsum
    | true => exact biasAdd_shape hsum hbias
  have hdef : maskStage (some ms) (biasStage use_bias bias
      (chebAccum K kernel reparam x a)) = maskMul (biasStage use_bias bias
      (chebAccum K kernel reparam x a)) ms.headI := rfl
  have hmasked : entryRow (maskStage (some ms) (biasStage use_bias bias
      (chebAccum K kernel reparam x a))) bi ni = List.replicate C 0 := by
    rw [hdef, maskMul_entryRow ho hms hb hn]
    simp only [hzero]
    rw [map_zero_mul, entryRow_length ho hb hn]
  refine ⟨hmasked, ?_⟩
  unfold call
  rw [hdef]
  rw [map3_entryRow activation (maskMul_shape ho hms) hb hn]
  rw [hdef] at hmasked
  rw [hmasked, List.map_replicate]

/-- Witness for C6: mask entry zero at node 0 of a 2-node graph. -/
theorem C6_mask_zeroes_row_witness :
    entryRow (maskStage (some [[[0, 1]]]) (biasStage true [7]
        (chebAccum 2 ([[[1], [2]], [[3], [4]]] : Tensor3 ℤ)
          (fun _ W k => W.getD k []) [[[1, 2], [3, 4]]] [[[0, 1], [1, 0]]])))
      0 0 = List.replicate 1 0
    ∧ entryRow (call 2 ([[[1], [2]], [[3], [4]]] : Tensor3 ℤ) true [7]
        (fun v => v + 9) (fun _ W k => W.getD k []) [[[1, 2], [3, 4]]]
        [[[0, 1], [1, 0]]] (some [[[0, 1]]])) 0 0
      = List.replicate 1 ((fun v : ℤ => v + 9) 0) :=
  C6_mask_zeroes_row 2 ([[[1], [2]], [[3], [4]]] : Tensor3 ℤ) true [7]
    (fun v => v + 9) (fun _ W k => W.getD k []) [[[1, 2], [3, 4]]]
    [[[0, 1], [1, 0]]] [[[0, 1]]] 1 2 2 1 0 0
    (by decide) (by decide)
    (by intro k hk; interval_cases k <;> decide)
    (by decide) (by decide) (by decide)
    (by decide) (by decide) (by decide) (by decide)

/-- C10: call reads only the first element of the supplied mask list
(output *= mask[0]); any two mask arguments with the same first element
produce the same output, so a mask associated with the operator input has
no effect. -/
theorem C10_only_first_mask_is_used [CommRing α] (K : Nat) (kernel : Tensor3 α)
    (use_bias : Bool) (bias : List α) (activation : α → α)
    (reparam : Nat → Tensor3 α → Nat → Mat α) (x a : Tensor3 α)
    (ms₁ ms₂ : List (Mat α)) (h : ms₁.headI = ms₂.headI) :
    call K kernel use_bias bias activation reparam x a (some ms₁)
      = call K kernel use_bias bias activation reparam x a (some ms₂) := by
  simp only [call, maskStage]
  rw [h]

/-- Witness for C10: a second mask element (for the operator input) differs
but the outputs agree. -/
theorem C10_only_first_mask_is_used_witness :
    ([[[1, 0]], [[9, 9]]] : List (Mat ℤ)).headI = ([[[1, 0]]] : List (Mat ℤ)).headI
    ∧ call 2 ([[[1], [2]], [[3], [4]]] : Tensor3 ℤ) true [7] (fun v => v)
        (fun _ W k => W.getD k []) [[[1, 2], [3, 4]]] [[[0, 1], [1, 0]]]
        (some [[[1, 0]], [[9, 9]]])
      = call 2 ([[[1], [2]], [[3], [4]]] : Tensor3 ℤ) true [7] (fun v => v)
        (fun _ W k => W.getD k []) [[[1, 2], [3, 4]]] [[[0, 1], [1, 0]]]
        (some [[[1, 0]]]) :=
  ⟨by decide,
   C10_only_first_mask_is_used 2 ([[[1], [2]], [[3], [4]]] : Tensor3 ℤ) true [7]
     (fun v => v) (fun _ W k => W.getD k []) [[[1, 2], [3, 4]]]
     [[[0, 1], [1, 0]]] [[[1, 0]], [[9, 9]]] [[[1, 0]]] (by decide)⟩

/-- One iteration of the loop of call, instrumented with the trace of the
arguments passed to the reparameterization; the state is
(output, trace, T_0, T_1). -/
def chebStepT [CommRing α] (K : Nat) (kernel : Tensor3 α)
    (reparam : Nat → Tensor3 α → Nat → Mat α) (a : Tensor3 α)
    (s : Tensor3 α × List (Nat × Tensor3 α × Nat) × Tensor3 α × Tensor3 α)
    (k : Nat) :
    Tensor3 α × List (Nat × Tensor3 α × Nat) × Tensor3 α × Tensor3 α :=
  let T_2 := sub3 (smul3 2 (modal_dot a s.2.2.2)) s.2.2.1
  (add3 s.1 (dot3 T_2 (reparam K kernel k)), s.2.1 ++ [(K, kernel, k)],
   s.2.2.2, T_2)

/-- The accumulation of call, instrumented with the trace of every
invocation of the reparameterization: each recorded entry is the full
argument triple (K, whole kernel, order). -/
def chebAccumT [CommRing α] (K : Nat) (kernel : Tensor3 α)
    (reparam : Nat → Tensor3 α → Nat → Mat α) (x a : Tensor3 α) :
    Tensor3 α × List (Nat × Tensor3 α × Nat) :=
  let T_0 := x
  let output := dot3 T_0 (reparam K kernel 0)
  let tr : List (Nat × Tensor3 α × Nat) := [(K, kernel, 0)]
  if 1 < K then
    let T_1 := modal_dot a x
    let output := add3 output (dot3 T_1 (reparam K kernel 1))
    let tr := tr ++ [(K, kernel, 1)]
    let s := (List.range' 2 (K - 2)).foldl (chebStepT K kernel reparam a)
      (output, tr, T_0, T_1)
    (s.1, s.2.1)
  else
    (output, tr)

theorem chebFoldT_eq [CommRing α] (K : Nat) (kernel : Tensor3 α)
    (reparam : Nat → Tensor3 α → Nat → Mat α) (x a : Tensor3 α) :
    ∀ (len j : Nat) (acc : Tensor3 α) (tr : List (Nat × Tensor3 α × Nat)),
      (List.range' (j + 2) len).foldl (chebStepT K kernel reparam a)
          (acc, tr, chebT a x j, chebT a x (j + 1))
        = ((List.range' (j + 2) len).foldl
            (fun o k => add3 o (dot3 (chebT a x k) (reparam K kernel k))) acc,
           tr ++ (List.range' (j + 2) len).map (fun k => (K, kernel, k)),
           chebT a x (j + len), chebT a x (j + len + 1)) := by
  intro len
  induction len with
  | zero => intro j acc tr; simp
  | succ n ih =>
    intro j acc tr
    have hrange : List.range' (j + 2) (n + 1)
        = (j + 2) :: List.range' (j + 3) n := rfl
    rw [hrange]
    simp only [List.foldl_cons, List.map_cons]
    have hstep : chebStepT K kernel reparam a
        (acc, tr, chebT a x j, chebT a x (j + 1)) (j + 2)
        = (add3 acc (dot3 (chebT a x (j + 2)) (reparam K kernel (j + 2))),
           tr ++ [(K, kernel, j + 2)], chebT a x (j + 1), chebT a x (j + 2)) := rfl
    rw [hstep]
    have harith : j + 3 = (j + 1) + 2 := by omega
    rw [harith, ih (j + 1)]
    have h1 : j + 1 + n = j + (n + 1) := by omega
    rw [h1]
    have h2 : tr ++ [(K, kernel, j + 2)]
          ++ (List.range' ((j + 1) + 2) n).map (fun k => (K, kernel, k))
        = tr ++ ((K, kernel, j + 2)
          :: (List.range' (j + 3) n).map (fun k => (K, kernel, k))) := by
      rw [List.append_assoc, List.singleton_append]
    rw [h2]

/-- C8: one forward computation invokes the reparameterization exactly once
per order, in order k = 0 .. K-1, and every invocation receives the triple
(K, full weight tensor, k) (not merely the order-th slice); the traced
accumulation computes exactly the accumulation of call, which recomputes
these products on every invocation (the layer caches nothing). -/
theorem C8_reparam_invoked_once_per_order [CommRing α] (K : Nat)
    (kernel : Tensor3 α) (reparam : Nat → Tensor3 α → Nat → Mat α)
    (x a : Tensor3 α) (hK : 1 ≤ K) :
    (chebAccumT K kernel reparam x a).2
      = (List.range K).map (fun k => (K, kernel, k))
    ∧ (chebAccumT K kernel reparam x a).1 = chebAccum K kernel reparam x a := by
  by_cases h : 1 < K
  · obtain ⟨m, rfl⟩ : ∃ m, K = m + 2 := ⟨K - 2, by omega⟩
    unfold chebAccumT chebAccum
    rw [if_pos h, if_pos h]
    have hm2 : m + 2 - 2 = m := by omega
    simp only [hm2]
    have h0x : chebT a x 0 = x := rfl
    have h1x : chebT a x 1 = modal_dot a x := rfl
    have hT := chebFoldT_eq (m + 2) kernel reparam x a m 0
      (add3 (dot3 x (reparam (m + 2) kernel 0))
        (dot3 (modal_dot a x) (reparam (m + 2) kernel 1)))
      ([(m + 2, kernel, 0)] ++ [(m + 2, kernel, 1)])
    have hU := chebFold_eq (m + 2) kernel reparam x a m 0
      (add3 (dot3 x (reparam (m + 2) kernel 0))
        (dot3 (modal_dot a x) (reparam (m + 2) kernel 1)))
    simp only [Nat.zero_add, h0x, h1x] at hT hU
    rw [hT, hU]
    refine ⟨?_, rfl⟩
    show [(m + 2, kernel, 0)] ++ [(m + 2, kernel, 1)]
        ++ (List.range' 2 m).map (fun k => (m + 2, kernel, k))
      = (List.range (m + 2)).map (fun k => (m + 2, kernel, k))
    rw [List.range_eq_range']
    have hsplit : List.range' 0 (m + 2) = 0 :: 1 :: List.range' 2 m := rfl
    rw [hsplit, List.map_cons, List.map_cons]
    rfl
  · have hK1 : K = 1 := by omega
    subst hK1
    exact ⟨rfl, rfl⟩

/-- Witness for C8 at K = 3 with concrete integer tensors. -/
theorem C8_reparam_invoked_once_per_order_witness :
    (chebAccumT 3 ([[[1], [0]], [[0], [1]], [[1], [1]]] : Tensor3 ℤ)
        (fun _ W k => W.getD k []) [[[1, 2], [3, 4]]] [[[0, 1], [1, 0]]]).2
      = (List.range 3).map
          (fun k => (3, ([[[1], [0]], [[0], [1]], [[1], [1]]] : Tensor3 ℤ), k))
    ∧ (chebAccumT 3 ([[[1], [0]], [[0], [1]], [[1], [1]]] : Tensor3 ℤ)
        (fun _ W k => W.getD k []) [[[1, 2], [3, 4]]] [[[0, 1], [1, 0]]]).1
      = chebAccum 3 ([[[1], [0]], [[0], [1]], [[1], [1]]] : Tensor3 ℤ)
          (fun _ W k => W.getD k []) [[[1, 2], [3, 4]]] [[[0, 1], [1, 0]]] :=
  C8_reparam_invoked_once_per_order 3
    ([[[1], [0]], [[0], [1]], [[1], [1]]] : Tensor3 ℤ)
    (fun _ W k => W.getD k []) [[[1, 2], [3, 4]]] [[[0, 1], [1, 0]]]
    (by decide)

/-- The mutable attributes of a ChebConv2 layer instance: the constructor
configuration (channels, K, use_bias, activation), the trainable weights
(kernel, bias) and the built flag. -/
structure LayerState (α : Type) where
  channels : Nat
  K : Nat
  use_bias : Bool
  kernel : Tensor3 α
  bias : List α
  built : Bool
  activation : α → α

/-- ChebConv2.build: the only check in the source is
assert len(input_shape) >= 2 (the layer receives at least two inputs);
then input_dim = input_shape[0][-1], the kernel of shape
(K, input_dim, channels) and, when use_bias, the bias of shape (channels,)
are requested from the framework (add_weight is modelled by the supplied
mk_kernel / mk_bias, which return the initializer-produced tensors for the
requested shape), and built is set to True.  A failed assert is the none
result. -/
def buildS (st : LayerState α) (mk_kernel : Nat → Nat → Nat → Tensor3 α)
    (mk_bias : Nat → List α) (input_shape : List (List Nat)) :
    Option (LayerState α) :=
  if 2 ≤ input_shape.length then
    let input_dim := (input_shape.headI).getLastD 0
    let kernel := mk_kernel st.K input_dim st.channels
    let bias := if st.use_bias then mk_bias st.channels else st.bias
    some (LayerState.mk st.channels st.K st.use_bias kernel bias true
      st.activation)
  else
    none

/-- ChebConv2.call as a state transformer on the layer: it reads K, kernel,
use_bias, bias and the activation from the state and assigns no attribute,
so the state component of the result is the incoming state. -/
def callS [CommRing α] (st : LayerState α)
    (reparam : Nat → Tensor3 α → Nat → Mat α) (x a : Tensor3 α)
    (mask : Option (List (Mat α))) : LayerState α × Tensor3 α :=
  (st, call st.K st.kernel st.use_bias st.bias st.activation reparam x a mask)

/-- C3 counterexample: build succeeds (returns a built state, raising no
error) for a layer configured with K = 0 on input shapes
[(3, 2, 5), (3, 4, 7)], i.e. with K < 1, a non-square operator shape and
an N mismatch between x (N = 2) and the operator (4 x 7): none of the
configuration errors of the claim is raised at build time. -/
theorem C3_counterexample :
    (buildS (LayerState.mk 4 0 true [] [] false (fun v : ℤ => v))
        (fun _ _ _ => []) (fun _ => []) [[3, 2, 5], [3, 4, 7]]).isSome = true
    ∧ (buildS (LayerState.mk 4 0 true [] [] false (fun v : ℤ => v))
        (fun _ _ _ => []) (fun _ => []) [[3, 2, 5], [3, 4, 7]]).map
          (fun st => st.built) = some true :=
  ⟨rfl, rfl⟩

/-- C3 (amended): the only validation performed at build time is the
assertion that at least two input shapes are provided; build succeeds for
every K (including K < 1), every stored feature dimension and every
operator shape, so K / squareness / N-agreement errors are not raised
before the numeric work. -/
theorem C3_amended_build_only_checks_arity (st : LayerState α)
    (mk_kernel : Nat → Nat → Nat → Tensor3 α) (mk_bias : Nat → List α)
    (input_shape : List (List Nat)) :
    (buildS st mk_kernel mk_bias input_shape).isSome = true
      ↔ 2 ≤ input_shape.length := by
  unfold buildS
  by_cases h : 2 ≤ input_shape.length
  · simp [h]
  · simp [h]

/-- C9: a call leaves the layer state unchanged (the forward pass only
reads the already-built kernel, bias and configuration), and the
transition to built happens in build, which sets built and preserves the
configuration. -/
theorem C9_call_leaves_state_unchanged [CommRing α] (st : LayerState α)
    (reparam : Nat → Tensor3 α → Nat → Mat α) (x a : Tensor3 α)
    (mask : Option (List (Mat α)))
    (mk_kernel : Nat → Nat → Nat → Tensor3 α) (mk_bias : Nat → List α)
    (input_shape : List (List Nat)) :
    (callS st reparam x a mask).1 = st
    ∧ ∀ st' ∈ buildS st mk_kernel mk_bias input_shape,
        st'.built = true ∧ st'.channels = st.channels ∧ st'.K = st.K
          ∧ st'.use_bias = st.use_bias := by
  refine ⟨rfl, ?_⟩
  intro st' h
  rw [Option.mem_def] at h
  unfold buildS at h
  by_cases hlen : 2 ≤ input_shape.length
  · rw [if_pos hlen] at h
    injection h with h
    subst h
    exact ⟨rfl, rfl, rfl, rfl⟩
  · rw [if_neg hlen] at h
    exact Option.noConfusion h

/-- Witness for C9 at a concrete layer state, inputs and input shapes. -/
theorem C9_call_leaves_state_unchanged_witness :
    (callS (LayerState.mk 1 1 true ([[[2]]] : Tensor3 ℤ) [3] true (fun v => v))
        (fun _ W _ => W.headI) [[[1]]] [[[5]]] none).1
      = LayerState.mk 1 1 true ([[[2]]] : Tensor3 ℤ) [3] true (fun v => v)
    ∧ ((LayerState.mk 1 1 true ([[[9]]] : Tensor3 ℤ) [9] true
          (fun v => v)).built = true
        ∧ (LayerState.mk 1 1 true ([[[9]]] : Tensor3 ℤ) [9] true
            (fun v => v)).channels
          = (LayerState.mk 1 1 true ([[[2]]] : Tensor3 ℤ) [3] true
              (fun v => v)).channels
        ∧ (LayerState.mk 1 1 true ([[[9]]] : Tensor3 ℤ) [9] true
            (fun v => v)).K
          = (LayerState.mk 1 1 true ([[[2]]] : Tensor3 ℤ) [3] true
              (fun v => v)).K
        ∧ (LayerState.mk 1 1 true ([[[9]]] : Tensor3 ℤ) [9] true
            (fun v => v)).use_bias
          = (LayerState.mk 1 1 true ([[[2]]] : Tensor3 ℤ) [3] true
              (fun v => v)).use_bias) :=
  ⟨(C9_call_leaves_state_unchanged
      (LayerState.mk 1 1 true ([[[2]]] : Tensor3 ℤ) [3] true (fun v => v))
      (fun _ W _ => W.headI) [[[1]]] [[[5]]] none
      (fun _ _ _ => [[[9]]]) (fun _ => [9]) [[2, 1, 1], [2, 1, 1]]).1,
   (C9_call_leaves_state_unchanged
      (LayerState.mk 1 1 true ([[[2]]] : Tensor3 ℤ) [3] true (fun v => v))
      (fun _ W _ => W.headI) [[[1]]] [[[5]]] none
      (fun _ _ _ => [[[9]]]) (fun _ => [9]) [[2, 1, 1], [2, 1, 1]]).2
     (LayerState.mk 1 1 true ([[[9]]] : Tensor3 ℤ) [9] true (fun v => v))
     rfl⟩

theorem mapIdx_getD {β γ : Type} (l : List β) (f : Nat → β → γ) (i : Nat)
    (d : γ) (dl : β) (h : i < l.length) :
    (l.mapIdx f).getD i d = f i (l.getD i dl) := by
  have h2 : i < (l.mapIdx f).length := by
    rw [List.length_mapIdx]
    exact h
  rw [List.getD_eq_getElem _ d h2, List.getD_eq_getElem l dl h]
  have h3 := List.get_mapIdx l f i h
  simpa [List.get_eq_getElem] using h3

/-- Row sum of row i: the degree of node i in the adjacency matrix. -/
def degreeAt (A : Mat ℚ) (i : Nat) : ℚ := (A.getD i []).sum

/-- Modelled from the spec: spektral.utils.normalized_laplacian (not part
of the given source fragment).  L = I - D^(-1/2) A D^(-1/2) with D the
diagonal degree matrix, written entrywise; invSqrt is the numeric
inverse-square-root routine, kept abstract. -/
def normalized_laplacian (invSqrt : ℚ → ℚ) (A : Mat ℚ) : Mat ℚ :=
  A.mapIdx (fun i row => row.mapIdx (fun j aij =>
    (if i = j then 1 else 0)
      - invSqrt (degreeAt A i) * aij * invSqrt (degreeAt A j)))

/-- Modelled from the spec: spektral.utils.rescale_laplacian (not part of
the given source fragment).  (2 / lmax) L - I, with lmax the estimated
largest eigenvalue of L, kept abstract as a parameter. -/
def rescale_laplacian (lmax : ℚ) (L : Mat ℚ) : Mat ℚ :=
  L.mapIdx (fun i row => row.mapIdx (fun j lij =>
    2 / lmax * lij - (if i = j then 1 else 0)))

/-- ChebConv2.preprocess: a = normalized_laplacian(a); a =
rescale_laplacian(a); return a. -/
def preprocess (invSqrt : ℚ → ℚ) (lmax : ℚ) (a : Mat ℚ) : Mat ℚ :=
  rescale_laplacian lmax (normalized_laplacian invSqrt a)

theorem preprocess_length (invSqrt : ℚ → ℚ) (lmax : ℚ) (a : Mat ℚ) :
    (preprocess invSqrt lmax a).length = a.length := by
  simp [preprocess, rescale_laplacian, normalized_laplacian,
    List.length_mapIdx]

theorem preprocess_row (invSqrt : ℚ → ℚ) (lmax : ℚ) (a : Mat ℚ) (i : Nat)
    (hi : i < a.length) :
    (preprocess invSqrt lmax a).getD i []
      = ((a.getD i []).mapIdx (fun j aij =>
            (if i = j then 1 else 0)
              - invSqrt (degreeAt a i) * aij * invSqrt (degreeAt a j))).mapIdx
          (fun j lij => 2 / lmax * lij - (if i = j then 1 else 0)) := by
  unfold preprocess rescale_laplacian normalized_laplacian
  have hi2 : i < (a.mapIdx (fun i row => row.mapIdx (fun j aij =>
      (if i = j then 1 else 0)
        - invSqrt (degreeAt a i) * aij * invSqrt (degreeAt a j)))).length := by
    rw [List.length_mapIdx]
    exact hi
  rw [mapIdx_getD _ _ i [] [] hi2]
  rw [mapIdx_getD _ _ i [] [] hi]

/-- C7: preprocess equals the rescaling applied to the normalized Laplacian
L = I - D^(-1/2) A D^(-1/2): it is their composition, preserves the shape
of a (a pure, deterministic transformation), and every in-range entry is
2/lmax ((i = j) - invSqrt(deg i) A[i][j] invSqrt(deg j)) - (i = j). -/
theorem C7_preprocess_rescaled_normalized_laplacian (invSqrt : ℚ → ℚ)
    (lmax : ℚ) (a : Mat ℚ) :
    preprocess invSqrt lmax a
        = rescale_laplacian lmax (normalized_laplacian invSqrt a)
    ∧ (preprocess invSqrt lmax a).length = a.length
    ∧ (∀ i, ((preprocess invSqrt lmax a).getD i []).length
        = (a.getD i []).length)
    ∧ ∀ i j, i < a.length → j < (a.getD i []).length →
        ((preprocess invSqrt lmax a).getD i []).getD j 0
          = 2 / lmax * ((if i = j then 1 else 0)
              - invSqrt (degreeAt a i) * ((a.getD i []).getD j 0)
                * invSqrt (degreeAt a j))
            - (if i = j then 1 else 0) := by
  refine ⟨rfl, preprocess_length invSqrt lmax a, ?_, ?_⟩
  · intro i
    by_cases hi : i < a.length
    · rw [preprocess_row invSqrt lmax a i hi]
      simp [List.length_mapIdx]
    · have h1 : (preprocess invSqrt lmax a).length ≤ i := by
        rw [preprocess_length]
        omega
      rw [List.getD_eq_default _ _ h1, List.getD_eq_default _ _ (by omega)]
  · intro i j hi hj
    rw [preprocess_row invSqrt lmax a i hi]
    have hj2 : j < ((a.getD i []).mapIdx (fun j aij =>
        (if i = j then 1 else 0)
          - invSqrt (degreeAt a i) * aij * invSqrt (degreeAt a j))).length := by
      rw [List.length_mapIdx]
      exact hj
    rw [mapIdx_getD _ _ j 0 0 hj2]
    rw [mapIdx_getD _ _ j 0 0 hj]

/-- Witness for C7 on the 3-node path graph with lmax = 2, checking the
off-diagonal entry (0, 1). -/
theorem C7_preprocess_rescaled_normalized_laplacian_witness :
    (0 : Nat) < ([[0, 1, 0], [1, 0, 1], [0, 1, 0]] : Mat ℚ).length
    ∧ 1 < (([[0, 1, 0], [1, 0, 1], [0, 1, 0]] : Mat ℚ).getD 0 []).length
    ∧ ((preprocess (fun q => 1 / q) 2
          ([[0, 1, 0], [1, 0, 1], [0, 1, 0]] : Mat ℚ)).getD 0 []).getD 1 0
        = 2 / 2 * ((if (0 : Nat) = 1 then 1 else 0)
            - (fun q : ℚ => 1 / q)
                (degreeAt ([[0, 1, 0], [1, 0, 1], [0, 1, 0]] : Mat ℚ) 0)
              * ((([[0, 1, 0], [1, 0, 1], [0, 1, 0]] : Mat ℚ).getD 0 []).getD 1 0)
              * (fun q : ℚ => 1 / q)
                  (degreeAt ([[0, 1, 0], [1, 0, 1], [0, 1, 0]] : Mat ℚ) 1))
          - (if (0 : Nat) = 1 then 1 else 0) :=
  ⟨by decide, by decide,
   (C7_preprocess_rescaled_normalized_laplacian (fun q => 1 / q) 2
      ([[0, 1, 0], [1, 0, 1], [0, 1, 0]] : Mat ℚ)).2.2.2 0 1
     (by decide) (by decide)⟩

end ChebConv2
